import Mathlib

/-!
# Verification of the Iroha MST state engine and ordering service intake

Shallow embedding of `src/irohad/multi_sig_transactions/state/impl/mst_state.cpp`
and of the ordering-service intake declared in
`src/irohad/ordering/impl/ordering_service_impl.hpp`, together with proofs of
the specified properties.

Modelling conventions:
* machine hashes and keys are `Nat` (hex strings of a fixed-width hash compare
  exactly like the underlying number, so sorting by `Nat` order models sorting
  by `hex(reduced_hash)`);
* a transaction's signature collection is a hash-set keyed by public key; it is
  represented canonically as a list of `(public_key, signed_data)` pairs kept
  sorted by public key, so structural equality of the representation is exactly
  content equality of the set;
* `internal_state_` (an `unordered_set` keyed by reduced hash) is a list of
  batches holding at most one batch per reduced hash; `index_` (a
  `std::priority_queue`) is a list kept sorted ascending by the expiry key, so
  its head is the queue's top;
* the C++ code mutates the stored batch through a shared pointer that is also
  held by the live entry of `index_`; the functional rendering updates the
  entries of both lists that carry the mutated batch's reduced hash.  Batches
  with equal reduced hashes differ at most in their signatures (the reduced
  hash covers everything else), so this coincides with pointer aliasing in
  every observation the code can make;
* the lookup `internal_state_.find(index_.top())` in `eraseByTime` is not
  checked in the C++ before being dereferenced; the embedding makes the
  operation `Option`-valued and returns `none` exactly when that lookup fails.
-/

namespace Iroha

/-- A transaction: its signature quorum, creation timestamp, and its set of
`(public_key, signed_data)` signatures, kept sorted by public key (canonical
representation of a hash-set keyed by the public key). -/
structure Transaction where
  quorum : Nat
  createdTime : Nat
  signatures : List (Nat × Nat)
  deriving DecidableEq, Repr

/-- A transaction batch: identity is the reduced hash (content hash excluding
signatures); same reduced hash implies same transactions up to signatures. -/
structure Batch where
  reducedHash : Nat
  transactions : List Transaction
  deriving DecidableEq, Repr

/-- Ordered insertion into the sorted-by-public-key signature list. -/
def insertSig (s : Nat × Nat) : List (Nat × Nat) → List (Nat × Nat)
  | [] => [s]
  | t :: ts => if s.1 ≤ t.1 then s :: t :: ts else t :: insertSig s ts

/-- `Transaction::addSignature(signed_data, public_key)`: returns `false` and
leaves the transaction unchanged when the public key already holds a
signature, otherwise adds the pair and returns `true`. -/
def Transaction.addSignature (tx : Transaction) (signedData pk : Nat) :
    Transaction × Bool :=
  if tx.signatures.any (fun s => s.1 == pk) then (tx, false)
  else ({ tx with signatures := insertSig (pk, signedData) tx.signatures }, true)

/-- Inner `std::accumulate` of `mergeSignaturesInBatch`: fold the donor
transaction's signatures into the target transaction, or-ing the "new
signature inserted" flag (`addSignature(...) or accumulator`). -/
def addSigs (acc : Transaction × Bool) (sigs : List (Nat × Nat)) :
    Transaction × Bool :=
  sigs.foldl
    (fun a s =>
      let r := a.1.addSignature s.2 s.1
      (r.1, r.2 || a.2))
    acc

/-- Positional pairwise loop of `mergeSignaturesInBatch` (`boost::combine`
over the two transaction sequences; batches that share a reduced hash have
equally long sequences). -/
def mergeTxLists : List Transaction → List Transaction → Bool →
    List Transaction × Bool
  | [], _, acc => ([], acc)
  | t :: ts, [], acc => (t :: ts, acc)
  | t :: ts, d :: ds, acc =>
    let r := addSigs (t, acc) d.signatures
    let rest := mergeTxLists ts ds r.2
    (r.1 :: rest.1, rest.2)

/-- `mergeSignaturesInBatch(target, donor)`: copy the donor's signatures into
the target batch, reporting whether at least one new signature was inserted. -/
def mergeSignaturesInBatch (target donor : Batch) : Batch × Bool :=
  let r := mergeTxLists target.transactions donor.transactions false
  ({ target with transactions := r.1 }, r.2)

/-- The externally supplied completer (`CompleterType`): completion predicate,
expiry predicate, and the expiry key ordering the priority queue. -/
structure Completer where
  complete : Batch → Bool
  expired : Batch → Nat → Bool
  expiryKey : Batch → Nat

/-- `MstState`: the batch set `internal_state_` (at most one batch per reduced
hash) and the expiry priority queue `index_` (sorted ascending by the
completer's expiry key; the head is the top). -/
structure MstState where
  completer : Completer
  internal : List Batch
  index : List Batch

/-- `internal_state_.find` keyed by reduced hash. -/
def findByHash (l : List Batch) (h : Nat) : Option Batch :=
  l.find? (fun b => b.reducedHash == h)

/-- `internal_state_.erase(iter)`: remove the (unique) batch with the hash. -/
def eraseByHash : List Batch → Nat → List Batch
  | [], _ => []
  | b :: bs, h => if b.reducedHash == h then bs else b :: eraseByHash bs h

/-- In-place mutation of the stored batch through its shared pointer: every
entry carrying the merged batch's reduced hash now shows the merged value. -/
def replaceByHash (l : List Batch) (m : Batch) : List Batch :=
  l.map (fun b => if b.reducedHash == m.reducedHash then m else b)

/-- `index_.push`: ordered insertion by expiry key (priority-queue model). -/
def pqInsert (key : Batch → Nat) (b : Batch) : List Batch → List Batch
  | [] => [b]
  | x :: xs => if key b < key x then b :: x :: xs else x :: pqInsert key b xs

/-- `unordered_set::insert`: a no-op when a batch with the hash is present. -/
def setInsert (l : List Batch) (b : Batch) : List Batch :=
  if (findByHash l b.reducedHash).isSome then l else l ++ [b]

/-- `MstState::empty(completer)`. -/
def MstState.emptyState (c : Completer) : MstState := ⟨c, [], []⟩

/-- `MstState::rawInsert`: insert into the set and push onto the queue. -/
def MstState.rawInsert (s : MstState) (b : Batch) : MstState :=
  { s with
    internal := setInsert s.internal b
    index := pqInsert s.completer.expiryKey b s.index }

/-- Effect of `MstState::insertOne` on the target state (`this`) alone.  Where
the C++ writes `out_state += found;` or `out += *iter;` it calls
`operator+=(DataType)` for its effect on the left operand and discards the
returned diff, so that effect is exactly this function. -/
def insertSelf (s : MstState) (b : Batch) : MstState :=
  match findByHash s.internal b.reducedHash with
  | none => s.rawInsert b
  | some found =>
    let r := mergeSignaturesInBatch found b
    let s1 : MstState :=
      { s with
        internal := replaceByHash s.internal r.1
        index := replaceByHash s.index r.1 }
    if s.completer.complete r.1 then
      { s1 with internal := eraseByHash s1.internal r.1.reducedHash }
    else s1

/-- `MstState::insertOne(out_state, rhs_batch)`: returns the updated target
state, the updated `out_state`, and the completion status.  In the completed
branch the batch is erased from `internal_state_` but never removed from
`index_` (the priority queue cannot erase an arbitrary element), which leaves
a stale queue entry behind. -/
def insertOne (s out : MstState) (b : Batch) : MstState × MstState × Bool :=
  match findByHash s.internal b.reducedHash with
  | none => (s.rawInsert b, out.rawInsert b, false)
  | some found =>
    let r := mergeSignaturesInBatch found b
    let s1 : MstState :=
      { s with
        internal := replaceByHash s.internal r.1
        index := replaceByHash s.index r.1 }
    if s.completer.complete r.1 then
      ({ s1 with internal := eraseByHash s1.internal r.1.reducedHash },
       insertSelf out r.1, true)
    else if r.2 then (s1, out.rawInsert r.1, false)
    else (s1, out, false)

/-- `MstState::operator+=(const DataType &)`: insert one batch, returning the
updated state, the diff state, and the completion status. -/
def MstState.plusBatch (s : MstState) (b : Batch) : MstState × MstState × Bool :=
  insertOne s (MstState.emptyState s.completer) b

/-- `MstState::operator+=(const MstState &)`: fold every member of the other
state into this one, accumulating the diff (iteration order of the other
state's `unordered_set` is implementation-defined; the fold follows the list
order of the argument). -/
def MstState.plusState (s : MstState) (rhs : MstState) : MstState × MstState :=
  rhs.internal.foldl
    (fun acc b =>
      let r := insertOne acc.1 acc.2 b
      (r.1, r.2.1))
    (s, MstState.emptyState s.completer)

/-- Modelled from the spec: `set_difference` of `common/set.hpp` is not under
`src/`; §4.2 defines `difference` as "exactly the members of `self` whose
reduced hash is not present in `other`" with signatures not compared. -/
def set_difference (l r : List Batch) : List Batch :=
  l.filter (fun b => !(findByHash r b.reducedHash).isSome)

/-- Sorted-by-expiry-key construction of the queue (the two-argument
constructor heapifies the given range). -/
def pqOfList (key : Batch → Nat) (l : List Batch) : List Batch :=
  l.foldl (fun acc b => pqInsert key b acc) []

/-- The private two-argument constructor `MstState(completer, transactions)`:
both containers are built from the same range. -/
def mkState (c : Completer) (l : List Batch) : MstState :=
  ⟨c, l, pqOfList c.expiryKey l⟩

/-- `MstState::operator-`. -/
def MstState.sub (a b : MstState) : MstState :=
  mkState a.completer (set_difference a.internal b.internal)

/-- Ordered insertion by reduced hash, for `getBatches`' sort. -/
def sortInsert (b : Batch) : List Batch → List Batch
  | [] => [b]
  | x :: xs => if b.reducedHash ≤ x.reducedHash then b :: x :: xs
               else x :: sortInsert b xs

/-- Sorting by `hex(reduced_hash)` ascending (equal to numeric order for a
fixed-width hash). -/
def sortByHash (l : List Batch) : List Batch := l.foldr sortInsert []

/-- `MstState::getBatches`: the members sorted ascending by reduced hash. -/
def MstState.getBatches (s : MstState) : List Batch := sortByHash s.internal

/-- `std::equal` over two batch ranges with deep batch equality: pointwise
comparison, `false` when the lengths differ. -/
def batchListEq : List Batch → List Batch → Bool
  | [], [] => true
  | a :: as, b :: bs => decide (a = b) && batchListEq as bs
  | _, _ => false

/-- `MstState::operator==`: compare the two sorted batch sequences. -/
def MstState.beqState (a b : MstState) : Bool :=
  batchListEq a.getBatches b.getBatches

/-- `MstState::isEmpty`. -/
def MstState.isEmpty (s : MstState) : Bool := s.internal.isEmpty

/-- Loop of `MstState::eraseByTime`: while the queue's top is expired, look the
top up in `internal_state_`, fold the found member into the outgoing state,
erase it from the set and pop the queue.  The C++ dereferences the lookup's
result unconditionally; a failed lookup is rendered as `none`. -/
def eraseLoop (c : Completer) :
    List Batch → List Batch → MstState → Nat →
    Option (List Batch × List Batch × MstState)
  | [], internal, out, _ => some ([], internal, out)
  | top :: rest, internal, out, t =>
    if c.expired top t then
      match findByHash internal top.reducedHash with
      | none => none
      | some m =>
        eraseLoop c rest (eraseByHash internal top.reducedHash)
          (insertSelf out m) t
    else some (top :: rest, internal, out)

/-- `MstState::eraseByTime(time)`: returns the updated state and the state of
expired batches, or `none` when the unchecked member lookup fails. -/
def MstState.eraseByTime (s : MstState) (t : Nat) :
    Option (MstState × MstState) :=
  match eraseLoop s.completer s.index s.internal (MstState.emptyState s.completer) t with
  | none => none
  | some (idx, intl, out) => some ({ s with internal := intl, index := idx }, out)

/-- Minimum of a list of timestamps (`0` for the empty list). -/
def minList : List Nat → Nat
  | [] => 0
  | [x] => x
  | x :: xs => Nat.min x (minList xs)

/-- The batch's earliest creation time. -/
def batchMinCreated (b : Batch) : Nat :=
  minList (b.transactions.map Transaction.createdTime)

/-- Modelled from the spec: the default completer implementation is not under
`src/`; §4.1 defines `is_complete` as every transaction having collected its
quorum of signatures and `is_expired(batch, now)` as `now − created_at ≥ TTL`,
with the expiry key the batch's earliest creation time. -/
def defaultCompleter (ttl : Nat) : Completer where
  complete b := b.transactions.all (fun tx => tx.quorum ≤ tx.signatures.length)
  expired b now := batchMinCreated b + ttl ≤ now
  expiryKey := batchMinCreated

/-! ## Ordering service intake

`OrderingServiceImpl`'s method bodies are not under `src/`; only the header
`ordering_service_impl.hpp` is.  The header declares
`tbb::concurrent_queue<model::Transaction> queue_` — an *unbounded* queue
whose `push` always succeeds — and documents `max_size_` as "max number of txs
in proposal". -/

/-- gRPC statuses relevant to `SendTransaction`. -/
inductive GrpcStatus where
  | ok
  | invalidArgument
  deriving DecidableEq, Repr

/-- Modelled from the spec and the header: the ordering service's intake state
(`queue_`, `max_size_`, `delay_milliseconds_`, and the proposal height
counter; §4.4 and §6). -/
structure OrderingService where
  queue : List Nat
  maxSize : Nat
  delayMs : Nat
  height : Nat
  deriving DecidableEq, Repr

/-- Modelled from the spec: `handleTransaction` enqueues the transaction;
`tbb::concurrent_queue::push` is unconditional (the queue is unbounded). -/
def handleTransaction (os : OrderingService) (tx : Nat) : OrderingService :=
  { os with queue := os.queue ++ [tx] }

/-- Modelled from the spec: `SendTransaction` converts the wire transaction
(`none` renders a conversion failure, answered with `INVALID_ARGUMENT`) and
otherwise enqueues it and returns `OK` (§4.4). -/
def sendTransaction (os : OrderingService) (wire : Option Nat) :
    OrderingService × GrpcStatus :=
  match wire with
  | none => (os, GrpcStatus.invalidArgument)
  | some tx => (handleTransaction os tx, GrpcStatus.ok)

/-- Modelled from the spec: `generateProposal` drains up to `max_size`
transactions in FIFO order into a height-stamped proposal; an empty drain
emits nothing (§4.4). -/
def generateProposal (os : OrderingService) :
    OrderingService × Option (List Nat × Nat) :=
  let txs := os.queue.take os.maxSize
  if txs.isEmpty then (os, none)
  else
    ({ os with queue := os.queue.drop os.maxSize, height := os.height + 1 },
     some (txs, os.height + 1))

/-! ## Well-formedness, traces and observations -/

/-- The representation invariant of `internal_state_` (an `unordered_set`
keyed by reduced hash): member hashes are pairwise distinct. -/
def HashNodup (l : List Batch) : Prop :=
  (l.map Batch.reducedHash).Nodup

instance (l : List Batch) : Decidable (HashNodup l) :=
  inferInstanceAs (Decidable (l.map Batch.reducedHash).Nodup)

/-- What one `insertOne` does to the member slot of the inserted batch's
reduced hash, as a function of the slot's previous occupant. -/
def slotAfter (c : Completer) (b : Batch) : Option Batch → Option Batch
  | none => some b
  | some found =>
    let m := (mergeSignaturesInBatch found b).1
    if c.complete m then none else some m

/-- The mutating public operations of `MstState`. -/
inductive MstOp where
  | insertB (b : Batch)
  | mergeSt (bs : List Batch)
  | eraseT (t : Nat)

/-- Argument well-formedness of an operation: a merged state's members carry
pairwise distinct reduced hashes. -/
def OpWF : MstOp → Prop
  | MstOp.insertB _ => True
  | MstOp.mergeSt bs => HashNodup bs
  | MstOp.eraseT _ => True

/-- Apply one public operation to the state (`none` when `eraseByTime`'s
unchecked lookup fails). -/
def applyOp (s : MstState) : MstOp → Option MstState
  | MstOp.insertB b => some (s.plusBatch b).1
  | MstOp.mergeSt bs => some (s.plusState ⟨s.completer, bs, []⟩).1
  | MstOp.eraseT t => (s.eraseByTime t).map Prod.fst

/-- Run a sequence of public operations. -/
def runOps (s : MstState) : List MstOp → Option MstState
  | [] => some s
  | op :: ops =>
    match applyOp s op with
    | none => none
    | some s1 => runOps s1 ops

/-- Signature growth between two observations of a batch: positionally, every
transaction's signature set of the first is contained in the second's. -/
def SigsGrow (m m' : Batch) : Prop :=
  List.Forall₂ (fun t t' : Transaction => t.signatures ⊆ t'.signatures)
    m.transactions m'.transactions

/-! ## Concrete scenario data

The completer of the scenarios (§8): quorum per transaction, TTL 10. -/

/-- Scenario completer: two-signature quorum lives in the transactions, TTL 10
seconds. -/
def cS1 : Completer := defaultCompleter 10

/-- Scenario S1: batch `b` carrying signature `pk1`. -/
def bS1a : Batch := ⟨7, [⟨2, 0, [(1, 101)]⟩]⟩

/-- Scenario S1: the same batch carrying signature `pk2`. -/
def bS1b : Batch := ⟨7, [⟨2, 0, [(2, 102)]⟩]⟩

/-- Scenario S1: the merged batch carrying `{pk1, pk2}`. -/
def bS1m : Batch := ⟨7, [⟨2, 0, [(1, 101), (2, 102)]⟩]⟩

/-- First S1 insertion. -/
def stS1a : MstState × MstState × Bool :=
  (MstState.emptyState cS1).plusBatch bS1a

/-- Second S1 insertion. -/
def stS1b : MstState × MstState × Bool := stS1a.1.plusBatch bS1b

/-- Scenario S2: re-inserting `bS1a` into the state already holding it. -/
def stS2 : MstState × MstState × Bool := stS1a.1.plusBatch bS1a

/-- Scenario S3: batch `b1` created at time 0 (quorum never reached). -/
def bS3a : Batch := ⟨3, [⟨1, 0, []⟩]⟩

/-- Scenario S3: batch `b2` created at time 5. -/
def bS3b : Batch := ⟨5, [⟨1, 5, []⟩]⟩

/-- Scenario S3 state: `{b1, b2}`. -/
def sS3 : MstState :=
  (((MstState.emptyState cS1).plusBatch bS3a).1.plusBatch bS3b).1

/-- A batch complete already at its first insertion (quorum 1, one
signature). -/
def bC3 : Batch := ⟨4, [⟨1, 0, [(1, 100)]⟩]⟩

/-- A third same-hash batch carrying signature `pk3`, for the order-dependence
counterexample. -/
def bC6y : Batch := ⟨7, [⟨2, 0, [(3, 103)]⟩]⟩

/-- Quorum-3 batch with signature `pk1`, for the monotonicity witness. -/
def bC8a : Batch := ⟨8, [⟨3, 0, [(1, 101)]⟩]⟩

/-- Quorum-3 batch with signature `pk2`. -/
def bC8b : Batch := ⟨8, [⟨3, 0, [(2, 102)]⟩]⟩

/-- The merged quorum-3 batch `{pk1, pk2}` (still incomplete). -/
def bC8m : Batch := ⟨8, [⟨3, 0, [(1, 101), (2, 102)]⟩]⟩

/-- State holding `bC8a`. -/
def sC8 : MstState := ((MstState.emptyState cS1).plusBatch bC8a).1

/-- A full ordering-service intake: one transaction queued, `max_size` 1. -/
def osFull : OrderingService := ⟨[5], 1, 100, 0⟩

/-! ## Toolkit: lookups, erasure, replacement -/

theorem findByHash_eq_none {l : List Batch} {h : Nat} :
    findByHash l h = none ↔ ∀ b ∈ l, b.reducedHash ≠ h := by
  simp [findByHash]

theorem findByHash_some {l : List Batch} {h : Nat} {b : Batch}
    (hf : findByHash l h = some b) : b ∈ l ∧ b.reducedHash = h := by
  refine ⟨List.mem_of_find?_eq_some hf, ?_⟩
  have hp := List.find?_some hf
  simpa using hp

theorem hashNodup_cons {a : Batch} {t : List Batch} :
    HashNodup (a :: t) ↔
      a.reducedHash ∉ t.map Batch.reducedHash ∧ HashNodup t := by
  simp [HashNodup]

theorem findByHash_cons_pos {a : Batch} {t : List Batch} {h : Nat}
    (hc : a.reducedHash = h) : findByHash (a :: t) h = some a := by
  unfold findByHash
  exact List.find?_cons_of_pos _ (beq_iff_eq.mpr hc)

theorem findByHash_cons_neg {a : Batch} {t : List Batch} {h : Nat}
    (hc : a.reducedHash ≠ h) : findByHash (a :: t) h = findByHash t h := by
  unfold findByHash
  exact List.find?_cons_of_neg _ (by simpa using hc)

theorem findByHash_of_mem {l : List Batch} {m : Batch}
    (hn : HashNodup l) (hm : m ∈ l) :
    findByHash l m.reducedHash = some m := by
  induction l with
  | nil => cases hm
  | cons a t ih =>
    rcases List.mem_cons.mp hm with rfl | hmt
    · exact findByHash_cons_pos rfl
    · rcases hashNodup_cons.mp hn with ⟨ha, ht⟩
      have hne : a.reducedHash ≠ m.reducedHash := fun he =>
        ha (he ▸ List.mem_map_of_mem Batch.reducedHash hmt)
      rw [findByHash_cons_neg hne]
      exact ih ht hmt

theorem eraseByHash_sublist (l : List Batch) (h : Nat) :
    (eraseByHash l h).Sublist l := by
  induction l with
  | nil => simp [eraseByHash]
  | cons a t ih =>
    by_cases hc : (a.reducedHash == h) = true
    · simp only [eraseByHash, hc, if_pos]
      exact List.sublist_cons_self a t
    · simpa [eraseByHash, hc] using List.Sublist.cons₂ a ih

theorem hashNodup_eraseByHash {l : List Batch} {h : Nat}
    (hn : HashNodup l) : HashNodup (eraseByHash l h) :=
  List.Nodup.sublist (List.Sublist.map Batch.reducedHash (eraseByHash_sublist l h)) hn

theorem find_eraseByHash_other {l : List Batch} {h h' : Nat} (hne : h ≠ h') :
    findByHash (eraseByHash l h') h = findByHash l h := by
  induction l with
  | nil => simp [eraseByHash]
  | cons a t ih =>
    by_cases hc : (a.reducedHash == h') = true
    · have hna : a.reducedHash ≠ h := fun he =>
        hne (he ▸ beq_iff_eq.mp hc)
      simp only [eraseByHash, hc, if_pos]
      rw [findByHash_cons_neg hna]
    · simp only [eraseByHash, hc, if_neg, Bool.false_eq_true, not_false_iff]
      by_cases hd : a.reducedHash = h
      · rw [findByHash_cons_pos hd, findByHash_cons_pos hd]
      · rw [findByHash_cons_neg hd, findByHash_cons_neg hd]
        exact ih

theorem find_eraseByHash_self {l : List Batch} {h : Nat}
    (hn : HashNodup l) : findByHash (eraseByHash l h) h = none := by
  induction l with
  | nil => simp [eraseByHash, findByHash]
  | cons a t ih =>
    rcases hashNodup_cons.mp hn with ⟨ha, ht⟩
    by_cases hc : (a.reducedHash == h) = true
    · have hah : a.reducedHash = h := beq_iff_eq.mp hc
      simp only [eraseByHash, hc, if_pos]
      rw [findByHash_eq_none]
      intro b hb he
      exact ha (hah ▸ he ▸ List.mem_map_of_mem Batch.reducedHash hb)
    · simp only [eraseByHash, hc, if_neg, Bool.false_eq_true, not_false_iff]
      rw [findByHash_cons_neg (by simpa using hc)]
      exact ih ht

theorem erase_perm {l : List Batch} {h : Nat} {m : Batch}
    (hf : findByHash l h = some m) : List.Perm l (m :: eraseByHash l h) := by
  induction l with
  | nil => simp [findByHash] at hf
  | cons a t ih =>
    by_cases hc : a.reducedHash = h
    · have : a = m := by
        rw [findByHash_cons_pos hc] at hf
        exact Option.some_injective _ hf
      subst this
      simp [eraseByHash, hc]
    · have hf' : findByHash t h = some m := by
        rw [findByHash_cons_neg hc] at hf
        exact hf
      have hp := (ih hf').cons a
      simp only [eraseByHash, (by simpa using hc : ¬(a.reducedHash == h) = true),
        if_neg, Bool.false_eq_true, not_false_iff]
      exact hp.trans (List.Perm.swap m a (eraseByHash t h))

theorem replaceByHash_map_hash (l : List Batch) (m : Batch) :
    (replaceByHash l m).map Batch.reducedHash = l.map Batch.reducedHash := by
  unfold replaceByHash
  rw [List.map_map]
  apply List.map_congr_left
  intro b _
  by_cases hc : (b.reducedHash == m.reducedHash) = true
  · simp [Function.comp, hc, beq_iff_eq.mp hc]
  · simp [Function.comp, hc]

theorem replaceByHash_of_not_mem {l : List Batch} {m : Batch}
    (hm : m.reducedHash ∉ l.map Batch.reducedHash) : replaceByHash l m = l := by
  induction l with
  | nil => rfl
  | cons a t ih =>
    have hm1 : a.reducedHash ≠ m.reducedHash := by
      intro he
      exact hm (by simp [← he])
    have hm2 : m.reducedHash ∉ t.map Batch.reducedHash := by
      intro hx
      exact hm (by simp [hx])
    show (if (a.reducedHash == m.reducedHash) = true then m else a) ::
        replaceByHash t m = a :: t
    rw [if_neg (by simpa using hm1), ih hm2]

theorem hashNodup_replaceByHash {l : List Batch} {m : Batch}
    (hn : HashNodup l) : HashNodup (replaceByHash l m) := by
  unfold HashNodup
  rw [replaceByHash_map_hash]
  exact hn

theorem find_replaceByHash_self {l : List Batch} {m : Batch}
    (hf : (findByHash l m.reducedHash).isSome) :
    findByHash (replaceByHash l m) m.reducedHash = some m := by
  induction l with
  | nil => simp [findByHash] at hf
  | cons a t ih =>
    by_cases hc : (a.reducedHash == m.reducedHash) = true
    · simp only [replaceByHash, List.map_cons, hc, if_pos]
      exact findByHash_cons_pos rfl
    · have hcc : a.reducedHash ≠ m.reducedHash := by simpa using hc
      have hf' : (findByHash t m.reducedHash).isSome := by
        rw [findByHash_cons_neg hcc] at hf
        exact hf
      simp only [replaceByHash, List.map_cons, hc, if_neg, Bool.false_eq_true,
        not_false_iff]
      rw [findByHash_cons_neg hcc]
      exact ih hf'

theorem find_replaceByHash_other {l : List Batch} {m : Batch} {h : Nat}
    (hne : h ≠ m.reducedHash) :
    findByHash (replaceByHash l m) h = findByHash l h := by
  induction l with
  | nil => simp [replaceByHash]
  | cons a t ih =>
    by_cases hc : (a.reducedHash == m.reducedHash) = true
    · have hna : a.reducedHash ≠ h := fun he => hne (he ▸ beq_iff_eq.mp hc)
      have hnm : m.reducedHash ≠ h := fun he => hne he.symm
      simp only [replaceByHash, List.map_cons, hc, if_pos]
      rw [findByHash_cons_neg hnm, findByHash_cons_neg hna]
      exact ih
    · simp only [replaceByHash, List.map_cons, hc, if_neg, Bool.false_eq_true,
        not_false_iff]
      by_cases hd : a.reducedHash = h
      · rw [findByHash_cons_pos hd, findByHash_cons_pos hd]
      · rw [findByHash_cons_neg hd, findByHash_cons_neg hd]
        exact ih

theorem replaceByHash_self_eq {l : List Batch} {m : Batch}
    (hn : HashNodup l) (hf : findByHash l m.reducedHash = some m) :
    replaceByHash l m = l := by
  induction l with
  | nil => rfl
  | cons a t ih =>
    rcases hashNodup_cons.mp hn with ⟨ha, ht⟩
    by_cases hc : (a.reducedHash == m.reducedHash) = true
    · have ham : a = m := by
        rw [findByHash_cons_pos (beq_iff_eq.mp hc)] at hf
        exact Option.some_injective _ hf
      subst ham
      show (if (a.reducedHash == a.reducedHash) = true then a else a) ::
          replaceByHash t a = a :: t
      rw [if_pos (by simp), replaceByHash_of_not_mem ha]
    · have hcc : a.reducedHash ≠ m.reducedHash := by simpa using hc
      have hf' : findByHash t m.reducedHash = some m := by
        rw [findByHash_cons_neg hcc] at hf
        exact hf
      simp only [replaceByHash, List.map_cons, hc, if_neg, Bool.false_eq_true,
        not_false_iff] at ih ⊢
      rw [ih ht hf']

theorem setInsert_of_none {l : List Batch} {b : Batch}
    (hf : findByHash l b.reducedHash = none) : setInsert l b = l ++ [b] := by
  simp [setInsert, hf]

theorem find_append_of_none {l l2 : List Batch} {h : Nat}
    (hf : findByHash l h = none) :
    findByHash (l ++ l2) h = findByHash l2 h := by
  unfold findByHash at hf ⊢
  rw [List.find?_append, hf]
  rfl

theorem find_append_left {l l2 : List Batch} {h : Nat} {m : Batch}
    (hf : findByHash l h = some m) :
    findByHash (l ++ l2) h = some m := by
  unfold findByHash at hf ⊢
  rw [List.find?_append, hf]
  rfl

/-! ## The effect of one insertion on the member slots -/

theorem merge_hash (t d : Batch) :
    (mergeSignaturesInBatch t d).1.reducedHash = t.reducedHash := rfl

theorem insertSelf_completer (s : MstState) (b : Batch) :
    (insertSelf s b).completer = s.completer := by
  unfold insertSelf
  cases hf : findByHash s.internal b.reducedHash with
  | none => rfl
  | some found =>
    by_cases hc : s.completer.complete (mergeSignaturesInBatch found b).1 <;>
      simp [hc]

theorem insertOne_fst (s out : MstState) (b : Batch) :
    (insertOne s out b).1 = insertSelf s b := by
  unfold insertOne insertSelf
  cases hf : findByHash s.internal b.reducedHash with
  | none => rfl
  | some found =>
    by_cases hc : s.completer.complete (mergeSignaturesInBatch found b).1
    · simp [hc]
    · by_cases hr : (mergeSignaturesInBatch found b).2 <;> simp [hc, hr]

theorem slot_insertSelf_other {s : MstState} {b : Batch} {h : Nat}
    (hne : h ≠ b.reducedHash) :
    findByHash (insertSelf s b).internal h = findByHash s.internal h := by
  unfold insertSelf
  cases hf : findByHash s.internal b.reducedHash with
  | none =>
    show findByHash (setInsert s.internal b) h = findByHash s.internal h
    rw [setInsert_of_none hf]
    unfold findByHash
    rw [List.find?_append]
    have hb : List.find? (fun x => x.reducedHash == h) [b] = none := by
      simp [Ne.symm hne]
    rw [hb]
    cases List.find? (fun x => x.reducedHash == h) s.internal <;> rfl
  | some found =>
    have hbh : found.reducedHash = b.reducedHash := (findByHash_some hf).2
    have hmh : h ≠ (mergeSignaturesInBatch found b).1.reducedHash := by
      rw [merge_hash, hbh]
      exact hne
    by_cases hc : s.completer.complete (mergeSignaturesInBatch found b).1
    · simp only [hc, if_pos]
      rw [find_eraseByHash_other hmh, find_replaceByHash_other hmh]
    · simp only [hc, if_neg, Bool.false_eq_true, not_false_iff]
      rw [find_replaceByHash_other hmh]

theorem slot_insertSelf_self {s : MstState} {b : Batch}
    (hn : HashNodup s.internal) :
    findByHash (insertSelf s b).internal b.reducedHash =
      slotAfter s.completer b (findByHash s.internal b.reducedHash) := by
  unfold insertSelf
  cases hf : findByHash s.internal b.reducedHash with
  | none =>
    show findByHash (setInsert s.internal b) b.reducedHash = _
    rw [setInsert_of_none hf, find_append_of_none hf, findByHash_cons_pos rfl]
    rfl
  | some found =>
    have hbh : found.reducedHash = b.reducedHash := (findByHash_some hf).2
    have hmh : (mergeSignaturesInBatch found b).1.reducedHash = b.reducedHash := by
      rw [merge_hash, hbh]
    by_cases hc : s.completer.complete (mergeSignaturesInBatch found b).1
    · simp only [hc, if_pos]
      rw [show b.reducedHash = (mergeSignaturesInBatch found b).1.reducedHash from
        hmh.symm]
      rw [find_eraseByHash_self (hashNodup_replaceByHash hn)]
      simp [slotAfter, hc]
    · simp only [hc, if_neg, Bool.false_eq_true, not_false_iff]
      have hsome : (findByHash s.internal
          (mergeSignaturesInBatch found b).1.reducedHash).isSome := by
        rw [hmh, hf]
        rfl
      rw [show b.reducedHash = (mergeSignaturesInBatch found b).1.reducedHash from
        hmh.symm]
      rw [find_replaceByHash_self hsome]
      simp [slotAfter, hc]

theorem hashNodup_insertSelf {s : MstState} {b : Batch}
    (hn : HashNodup s.internal) : HashNodup (insertSelf s b).internal := by
  unfold insertSelf
  cases hf : findByHash s.internal b.reducedHash with
  | none =>
    show HashNodup (setInsert s.internal b)
    rw [setInsert_of_none hf]
    have hnb : b.reducedHash ∉ s.internal.map Batch.reducedHash := by
      intro hx
      rcases List.mem_map.mp hx with ⟨x, hxl, hxh⟩
      exact (findByHash_eq_none.mp hf x hxl) hxh
    simp [HashNodup, List.nodup_append] at hn ⊢
    exact ⟨hn, fun x hxl hxh => hnb (hxh ▸ List.mem_map_of_mem Batch.reducedHash hxl)⟩
  | some found =>
    by_cases hc : s.completer.complete (mergeSignaturesInBatch found b).1
    · simp only [hc, if_pos]
      exact hashNodup_eraseByHash (hashNodup_replaceByHash hn)
    · simp only [hc, if_neg, Bool.false_eq_true, not_false_iff]
      exact hashNodup_replaceByHash hn

/-! ## The merge only adds signatures -/

theorem insertSig_subset (s : Nat × Nat) (l : List (Nat × Nat)) :
    l ⊆ insertSig s l := by
  induction l with
  | nil => intro x hx; cases hx
  | cons t ts ih =>
    unfold insertSig
    by_cases hc : s.1 ≤ t.1
    · rw [if_pos hc]
      exact List.subset_cons_of_subset s (List.Subset.refl _)
    · rw [if_neg hc]
      exact List.cons_subset_cons t ih

theorem addSignature_subset (tx : Transaction) (sd pk : Nat) :
    tx.signatures ⊆ (tx.addSignature sd pk).1.signatures := by
  unfold Transaction.addSignature
  by_cases hc : tx.signatures.any (fun s => s.1 == pk)
  · rw [if_pos hc]
    exact List.Subset.refl _
  · rw [if_neg hc]
    exact insertSig_subset _ _

theorem addSigs_subset (ds : List (Nat × Nat)) :
    ∀ (t : Transaction) (acc : Bool),
      t.signatures ⊆ (addSigs (t, acc) ds).1.signatures := by
  induction ds with
  | nil => intro t acc; exact List.Subset.refl _
  | cons d ds ih =>
    intro t acc
    have hstep : addSigs (t, acc) (d :: ds) =
        addSigs ((t.addSignature d.2 d.1).1,
          (t.addSignature d.2 d.1).2 || acc) ds := rfl
    rw [hstep]
    exact List.Subset.trans (addSignature_subset t d.2 d.1) (ih _ _)

theorem forall₂_subset_refl (ts : List Transaction) :
    List.Forall₂ (fun t t' : Transaction => t.signatures ⊆ t'.signatures) ts ts := by
  induction ts with
  | nil => exact List.Forall₂.nil
  | cons t ts ih => exact List.Forall₂.cons (List.Subset.refl _) ih

theorem mergeTxLists_grow :
    ∀ (ts ds : List Transaction) (acc : Bool),
      List.Forall₂ (fun t t' : Transaction => t.signatures ⊆ t'.signatures)
        ts (mergeTxLists ts ds acc).1 := by
  intro ts
  induction ts with
  | nil => intro ds acc; exact List.Forall₂.nil
  | cons t ts ih =>
    intro ds acc
    cases ds with
    | nil => exact forall₂_subset_refl _
    | cons d ds =>
      exact List.Forall₂.cons (addSigs_subset d.signatures t acc) (ih ds _)

theorem merge_grow (t d : Batch) : SigsGrow t (mergeSignaturesInBatch t d).1 :=
  mergeTxLists_grow t.transactions d.transactions false

theorem sigsGrow_rfl (m : Batch) : SigsGrow m m := forall₂_subset_refl m.transactions

theorem forall₂_subset_trans {a b c : List Transaction}
    (h1 : List.Forall₂ (fun t t' : Transaction => t.signatures ⊆ t'.signatures) a b)
    (h2 : List.Forall₂ (fun t t' : Transaction => t.signatures ⊆ t'.signatures) b c) :
    List.Forall₂ (fun t t' : Transaction => t.signatures ⊆ t'.signatures) a c := by
  induction h1 generalizing c with
  | nil => cases h2; exact List.Forall₂.nil
  | cons hab htail ih =>
    cases h2 with
    | cons hbc htail2 =>
      exact List.Forall₂.cons (List.Subset.trans hab hbc) (ih htail2)

theorem sigsGrow_trans {a b c : Batch} (h1 : SigsGrow a b) (h2 : SigsGrow b c) :
    SigsGrow a c := forall₂_subset_trans h1 h2

/-! ## A merge that reports no new signature changes nothing -/

theorem addSignature_of_false {tx : Transaction} {sd pk : Nat}
    (h : (tx.addSignature sd pk).2 = false) : (tx.addSignature sd pk).1 = tx := by
  unfold Transaction.addSignature at h ⊢
  by_cases hc : tx.signatures.any (fun s => s.1 == pk)
  · rw [if_pos hc]
  · rw [if_neg hc] at h
    cases h

theorem addSigs_of_false (ds : List (Nat × Nat)) :
    ∀ (t : Transaction) (acc : Bool), (addSigs (t, acc) ds).2 = false →
      (addSigs (t, acc) ds).1 = t ∧ acc = false := by
  induction ds with
  | nil => intro t acc h; exact ⟨rfl, h⟩
  | cons d ds ih =>
    intro t acc h
    have hstep : addSigs (t, acc) (d :: ds) =
        addSigs ((t.addSignature d.2 d.1).1,
          (t.addSignature d.2 d.1).2 || acc) ds := rfl
    rw [hstep] at h ⊢
    rcases ih _ _ h with ⟨h1, h2⟩
    rcases Bool.or_eq_false_iff.mp h2 with ⟨ha, hb⟩
    exact ⟨by rw [h1, addSignature_of_false ha], hb⟩

theorem mergeTxLists_of_false :
    ∀ (ts ds : List Transaction) (acc : Bool),
      (mergeTxLists ts ds acc).2 = false →
      (mergeTxLists ts ds acc).1 = ts ∧ acc = false := by
  intro ts
  induction ts with
  | nil => intro ds acc h; exact ⟨rfl, h⟩
  | cons t ts ih =>
    intro ds acc h
    cases ds with
    | nil => exact ⟨rfl, h⟩
    | cons d ds =>
      have hstep :
          mergeTxLists (t :: ts) (d :: ds) acc =
            ((addSigs (t, acc) d.signatures).1 ::
              (mergeTxLists ts ds (addSigs (t, acc) d.signatures).2).1,
             (mergeTxLists ts ds (addSigs (t, acc) d.signatures).2).2) := rfl
      rw [hstep] at h ⊢
      simp only at h
      rcases ih ds _ h with ⟨h1, h2⟩
      rcases addSigs_of_false d.signatures t acc h2 with ⟨h3, h4⟩
      simp only [h1, h3]
      exact ⟨trivial, h4⟩

theorem merge_of_false {t d : Batch}
    (h : (mergeSignaturesInBatch t d).2 = false) :
    (mergeSignaturesInBatch t d).1 = t := by
  have h2 : (mergeTxLists t.transactions d.transactions false).2 = false := h
  rcases mergeTxLists_of_false t.transactions d.transactions false h2 with ⟨h1, _⟩
  show Batch.mk t.reducedHash
      (mergeTxLists t.transactions d.transactions false).1 = t
  rw [h1]

/-! ## Sorting by reduced hash -/

theorem sortInsert_perm (b : Batch) (l : List Batch) :
    List.Perm (sortInsert b l) (b :: l) := by
  induction l with
  | nil => exact List.Perm.refl _
  | cons x xs ih =>
    unfold sortInsert
    by_cases hc : b.reducedHash ≤ x.reducedHash
    · rw [if_pos hc]
    · rw [if_neg hc]
      exact (ih.cons x).trans (List.Perm.swap b x xs)

theorem sortByHash_perm (l : List Batch) : List.Perm (sortByHash l) l := by
  induction l with
  | nil => exact List.Perm.refl _
  | cons a t ih =>
    have hstep : sortByHash (a :: t) = sortInsert a (sortByHash t) := rfl
    rw [hstep]
    exact (sortInsert_perm a (sortByHash t)).trans (ih.cons a)

theorem sortInsert_sorted {b : Batch} {l : List Batch}
    (hs : List.Sorted (fun a b : Batch => a.reducedHash ≤ b.reducedHash) l) :
    List.Sorted (fun a b : Batch => a.reducedHash ≤ b.reducedHash)
      (sortInsert b l) := by
  induction l with
  | nil => simp [sortInsert]
  | cons x xs ih =>
    rw [List.sorted_cons] at hs
    unfold sortInsert
    by_cases hc : b.reducedHash ≤ x.reducedHash
    · rw [if_pos hc, List.sorted_cons]
      refine ⟨?_, List.sorted_cons.mpr hs⟩
      intro y hy
      rcases List.mem_cons.mp hy with rfl | hyx
      · exact hc
      · exact Nat.le_trans hc (hs.1 y hyx)
    · rw [if_neg hc, List.sorted_cons]
      refine ⟨?_, ih hs.2⟩
      intro y hy
      have hy' : y ∈ b :: xs := (sortInsert_perm b xs).mem_iff.mp hy
      rcases List.mem_cons.mp hy' with rfl | hyx
      · exact Nat.le_of_not_le hc
      · exact hs.1 y hyx

theorem sortByHash_sorted (l : List Batch) :
    List.Sorted (fun a b : Batch => a.reducedHash ≤ b.reducedHash)
      (sortByHash l) := by
  induction l with
  | nil => simp [sortByHash]
  | cons a t ih => exact sortInsert_sorted ih

theorem pairwise_lt_of_sorted_nodup {l : List Batch}
    (hs : List.Sorted (fun a b : Batch => a.reducedHash ≤ b.reducedHash) l)
    (hn : HashNodup l) :
    List.Pairwise (fun a b : Batch => a.reducedHash < b.reducedHash) l := by
  have hne : List.Pairwise
      (fun a b : Batch => a.reducedHash ≠ b.reducedHash) l := by
    unfold HashNodup at hn
    exact (List.pairwise_map.mp hn)
  exact (hs.and hne).imp (fun hab => Nat.lt_of_le_of_ne hab.1 hab.2)

instance : IsAntisymm Batch (fun a b : Batch => a.reducedHash < b.reducedHash) :=
  ⟨fun _ _ h1 h2 => absurd h2 (Nat.lt_asymm h1)⟩

theorem hashNodup_of_perm {l1 l2 : List Batch} (hp : List.Perm l1 l2)
    (hn : HashNodup l1) : HashNodup l2 :=
  ((hp.map Batch.reducedHash).nodup_iff).mp hn

theorem sortByHash_eq_of_perm {l1 l2 : List Batch} (hp : List.Perm l1 l2)
    (hn : HashNodup l1) : sortByHash l1 = sortByHash l2 := by
  have hp2 : List.Perm (sortByHash l1) (sortByHash l2) :=
    ((sortByHash_perm l1).trans hp).trans (sortByHash_perm l2).symm
  have hn1 : HashNodup (sortByHash l1) :=
    hashNodup_of_perm (sortByHash_perm l1).symm hn
  have hn2 : HashNodup (sortByHash l2) :=
    hashNodup_of_perm (hp.trans (sortByHash_perm l2).symm) hn
  exact List.eq_of_perm_of_sorted hp2
    (pairwise_lt_of_sorted_nodup (sortByHash_sorted l1) hn1)
    (pairwise_lt_of_sorted_nodup (sortByHash_sorted l2) hn2)

theorem batchListEq_iff {l1 l2 : List Batch} :
    batchListEq l1 l2 = true ↔ l1 = l2 := by
  induction l1 generalizing l2 with
  | nil =>
    cases l2 with
    | nil => simp [batchListEq]
    | cons b bs => simp [batchListEq]
  | cons a as ih =>
    cases l2 with
    | nil => simp [batchListEq]
    | cons b bs =>
      unfold batchListEq
      rw [Bool.and_eq_true, decide_eq_true_iff, ih]
      constructor
      · rintro ⟨rfl, rfl⟩
        rfl
      · intro h
        injection h with h1 h2
        exact ⟨h1, h2⟩

/-! ## Member lists are determined by their slots -/

theorem perm_of_slots_eq {l1 l2 : List Batch}
    (hn1 : HashNodup l1) (hn2 : HashNodup l2)
    (hs : ∀ h, findByHash l1 h = findByHash l2 h) : List.Perm l1 l2 := by
  induction l1 generalizing l2 with
  | nil =>
    have : l2 = [] := by
      cases l2 with
      | nil => rfl
      | cons b bs =>
        have hb := (hs b.reducedHash).symm
        rw [findByHash_cons_pos rfl] at hb
        simp [findByHash] at hb
    rw [this]
  | cons a t1 ih =>
    rcases hashNodup_cons.mp hn1 with ⟨ha, ht1⟩
    have hfa : findByHash l2 a.reducedHash = some a := by
      rw [← hs a.reducedHash, findByHash_cons_pos rfl]
    have hperm2 : List.Perm l2 (a :: eraseByHash l2 a.reducedHash) :=
      erase_perm hfa
    have hnE : HashNodup (eraseByHash l2 a.reducedHash) :=
      hashNodup_eraseByHash hn2
    have hslots : ∀ h, findByHash t1 h =
        findByHash (eraseByHash l2 a.reducedHash) h := by
      intro h
      by_cases hha : h = a.reducedHash
      · subst hha
        rw [find_eraseByHash_self hn2, findByHash_eq_none]
        intro b hb he
        exact ha (he ▸ List.mem_map_of_mem Batch.reducedHash hb)
      · rw [find_eraseByHash_other hha, ← hs h,
          findByHash_cons_neg (fun he => hha he.symm)]
    exact ((ih ht1 hnE hslots).cons a).trans hperm2.symm

/-! ## Folding a state in (`operator+=(const MstState &)`) -/

theorem plusState_fst (s : MstState) (rhs : MstState) :
    (s.plusState rhs).1 = rhs.internal.foldl insertSelf s := by
  unfold MstState.plusState
  suffices h : ∀ (bs : List Batch) (a : MstState × MstState),
      (bs.foldl (fun acc b =>
        let r := insertOne acc.1 acc.2 b
        (r.1, r.2.1)) a).1 = bs.foldl insertSelf a.1 by
    exact h rhs.internal _
  intro bs
  induction bs with
  | nil => intro a; rfl
  | cons b bs ih =>
    intro a
    rw [List.foldl_cons, List.foldl_cons, ih]
    show (bs.foldl insertSelf (insertOne a.1 a.2 b).1) = _
    rw [insertOne_fst]

theorem foldl_insertSelf_completer (bs : List Batch) (s : MstState) :
    (bs.foldl insertSelf s).completer = s.completer := by
  induction bs generalizing s with
  | nil => rfl
  | cons b bs ih =>
    rw [List.foldl_cons, ih, insertSelf_completer]

theorem foldl_insertSelf_nodup (bs : List Batch) {s : MstState}
    (hn : HashNodup s.internal) : HashNodup (bs.foldl insertSelf s).internal := by
  induction bs generalizing s with
  | nil => exact hn
  | cons b bs ih =>
    rw [List.foldl_cons]
    exact ih (hashNodup_insertSelf hn)

theorem foldl_slot_other {bs : List Batch} {h : Nat}
    (hnb : h ∉ bs.map Batch.reducedHash) (s : MstState) :
    findByHash (bs.foldl insertSelf s).internal h = findByHash s.internal h := by
  induction bs generalizing s with
  | nil => rfl
  | cons b bs ih =>
    have h1 : h ≠ b.reducedHash := fun he => hnb (by simp [he])
    have h2 : h ∉ bs.map Batch.reducedHash := fun hx => hnb (by simp [hx])
    rw [List.foldl_cons, ih h2, slot_insertSelf_other h1]

/-! ## The `eraseByTime` loop -/

theorem eraseLoop_spec (c : Completer) (t : Nat)
    (hmono : ∀ a b : Batch, c.expiryKey a ≤ c.expiryKey b →
      c.expired b t = true → c.expired a t = true) :
    ∀ (idx intl : List Batch) (out : MstState),
      HashNodup intl →
      List.Perm idx intl →
      List.Sorted (fun a b : Batch => c.expiryKey a ≤ c.expiryKey b) idx →
      (∀ b ∈ intl, findByHash out.internal b.reducedHash = none) →
      ∃ idx2 intl2 out2,
        eraseLoop c idx intl out t = some (idx2, intl2, out2) ∧
        List.Perm out2.internal
          (out.internal ++ intl.filter (fun b => c.expired b t)) ∧
        List.Perm intl2 (intl.filter (fun b => !(c.expired b t))) ∧
        (∀ m ∈ intl2, c.expired m t = false) := by
  intro idx
  induction idx with
  | nil =>
    intro intl out hn hperm _ _
    have hintl : intl = [] := hperm.symm.eq_nil
    subst hintl
    exact ⟨[], [], out, rfl, by simp, by simp, by intro m hm; cases hm⟩
  | cons top rest ih =>
    intro intl out hn hperm hsorted hdisj
    rcases List.sorted_cons.mp hsorted with ⟨htople, hrestsorted⟩
    by_cases hexp : c.expired top t = true
    · have htopmem : top ∈ intl := hperm.subset (List.mem_cons_self top rest)
      have hfind : findByHash intl top.reducedHash = some top :=
        findByHash_of_mem hn htopmem
      have hout : findByHash out.internal top.reducedHash = none :=
        hdisj top htopmem
      have hn' : HashNodup (eraseByHash intl top.reducedHash) :=
        hashNodup_eraseByHash hn
      have hperm' : List.Perm rest (eraseByHash intl top.reducedHash) := by
        have h1 : List.Perm (top :: rest)
            (top :: eraseByHash intl top.reducedHash) :=
          hperm.trans (erase_perm hfind)
        exact h1.cons_inv
      have hdisj' : ∀ b ∈ eraseByHash intl top.reducedHash,
          findByHash (insertSelf out top).internal b.reducedHash = none := by
        intro b hb
        have hbne : b.reducedHash ≠ top.reducedHash :=
          findByHash_eq_none.mp (find_eraseByHash_self hn) b hb
        rw [slot_insertSelf_other hbne]
        exact hdisj b ((eraseByHash_sublist intl top.reducedHash).subset hb)
      rcases ih (eraseByHash intl top.reducedHash) (insertSelf out top) hn'
          hperm' hrestsorted hdisj' with
        ⟨idx2, intl2, out2, hrun, hout2, hintl2, hall⟩
      refine ⟨idx2, intl2, out2, ?_, ?_, ?_, hall⟩
      · simp only [eraseLoop, hexp, if_pos, hfind]
        exact hrun
      · have hinsout : (insertSelf out top).internal = out.internal ++ [top] := by
          unfold insertSelf
          rw [hout]
          show setInsert out.internal top = _
          exact setInsert_of_none hout
        rw [hinsout] at hout2
        have hfperm : List.Perm (intl.filter (fun b => c.expired b t))
            (top :: (eraseByHash intl top.reducedHash).filter
              (fun b => c.expired b t)) := by
          have hpf := (erase_perm hfind).filter (fun b => c.expired b t)
          simpa [hexp] using hpf
        refine hout2.trans ?_
        rw [List.append_assoc]
        show List.Perm (out.internal ++ (top :: (eraseByHash intl
          top.reducedHash).filter (fun b => c.expired b t))) _
        exact List.Perm.append_left out.internal hfperm.symm
      · refine hintl2.trans ?_
        have hpf := ((erase_perm hfind).filter (fun b => !(c.expired b t))).symm
        simpa [hexp] using hpf
    · have hallne : ∀ m ∈ intl, c.expired m t = false := by
        intro m hm
        have hm' : m ∈ top :: rest := hperm.symm.subset hm
        rcases List.mem_cons.mp hm' with rfl | hmr
        · exact Bool.not_eq_true _ ▸ eq_false_of_ne_true hexp
        · cases hq : c.expired m t with
          | false => rfl
          | true => exact absurd (hmono top m (htople m hmr) hq) hexp
      refine ⟨top :: rest, intl, out, ?_, ?_, ?_, hallne⟩
      · simp only [eraseLoop, hexp, if_neg, Bool.false_eq_true, not_false_iff]
      · have hfe : intl.filter (fun b => c.expired b t) = [] :=
          List.filter_eq_nil_iff.mpr (fun a ha => by simp [hallne a ha])
        rw [hfe, List.append_nil]
      · have hfs : intl.filter (fun b => !(c.expired b t)) = intl :=
          List.filter_eq_self.mpr (fun a ha => by simp [hallne a ha])
        rw [hfs]

theorem eraseLoop_sublist (c : Completer) (t : Nat) :
    ∀ (idx intl : List Batch) (out : MstState) (idx2 intl2 : List Batch)
      (out2 : MstState),
      eraseLoop c idx intl out t = some (idx2, intl2, out2) →
      intl2.Sublist intl := by
  intro idx
  induction idx with
  | nil =>
    intro intl out idx2 intl2 out2 hrun
    simp only [eraseLoop, Option.some.injEq, Prod.mk.injEq] at hrun
    rw [← hrun.2.1]
  | cons top rest ih =>
    intro intl out idx2 intl2 out2 hrun
    by_cases hexp : c.expired top t = true
    · cases hf : findByHash intl top.reducedHash with
      | none =>
        simp only [eraseLoop, hexp, hf, if_pos] at hrun
        cases hrun
      | some m =>
        simp only [eraseLoop, hexp, hf, if_pos] at hrun
        exact (ih _ _ _ _ _ hrun).trans (eraseByHash_sublist intl top.reducedHash)
    · simp only [eraseLoop, hexp, if_neg, Bool.false_eq_true, not_false_iff,
        Option.some.injEq, Prod.mk.injEq] at hrun
      rw [← hrun.2.1]

/-! ## Monotone growth of member signatures -/

theorem insertSelf_mono {s : MstState} {b m m1 : Batch}
    (hn : HashNodup s.internal) (hm : m ∈ s.internal)
    (hm1 : m1 ∈ (insertSelf s b).internal)
    (hh : m1.reducedHash = m.reducedHash) : SigsGrow m m1 := by
  have hfm : findByHash s.internal m.reducedHash = some m :=
    findByHash_of_mem hn hm
  have hn1 : HashNodup (insertSelf s b).internal := hashNodup_insertSelf hn
  have hfm1 : findByHash (insertSelf s b).internal m.reducedHash = some m1 := by
    rw [← hh]
    exact findByHash_of_mem hn1 hm1
  by_cases hcase : m.reducedHash = b.reducedHash
  · rw [hcase] at hfm hfm1
    rw [slot_insertSelf_self hn, hfm] at hfm1
    by_cases hc : s.completer.complete (mergeSignaturesInBatch m b).1 = true
    · simp [slotAfter, hc] at hfm1
    · simp only [slotAfter, hc, if_neg, Bool.false_eq_true, not_false_iff,
        Option.some.injEq] at hfm1
      rw [← hfm1]
      exact merge_grow m b
  · rw [slot_insertSelf_other hcase, hfm] at hfm1
    have hmm : m = m1 := Option.some_injective _ hfm1
    rw [← hmm]
    exact sigsGrow_rfl m

theorem foldl_insertSelf_mono {bs : List Batch} {m m1 : Batch} :
    ∀ {s : MstState}, HashNodup bs → HashNodup s.internal →
      m ∈ s.internal → m1 ∈ (bs.foldl insertSelf s).internal →
      m1.reducedHash = m.reducedHash → SigsGrow m m1 := by
  induction bs with
  | nil =>
    intro s _ hn hm hm1 hh
    have hfm : findByHash s.internal m.reducedHash = some m :=
      findByHash_of_mem hn hm
    have hfm1 : findByHash s.internal m.reducedHash = some m1 := by
      rw [← hh]
      exact findByHash_of_mem hn hm1
    have hmm : m = m1 := by
      rw [hfm] at hfm1
      exact Option.some_injective _ hfm1
    rw [← hmm]
    exact sigsGrow_rfl m
  | cons b bs ih =>
    intro s hnb hn hm hm1 hh
    rcases hashNodup_cons.mp hnb with ⟨hb, hbs⟩
    rw [List.foldl_cons] at hm1
    by_cases hcase : b.reducedHash = m.reducedHash
    · have hnotin : m.reducedHash ∉ bs.map Batch.reducedHash := hcase ▸ hb
      have hfm1 : findByHash (bs.foldl insertSelf
          (insertSelf s b)).internal m.reducedHash = some m1 := by
        rw [← hh]
        exact findByHash_of_mem
          (foldl_insertSelf_nodup bs (hashNodup_insertSelf hn)) hm1
      rw [foldl_slot_other hnotin] at hfm1
      exact insertSelf_mono hn hm (findByHash_some hfm1).1 hh
    · have hfm : findByHash (insertSelf s b).internal m.reducedHash = some m := by
        rw [slot_insertSelf_other (fun he => hcase he.symm)]
        exact findByHash_of_mem hn hm
      exact ih hbs (hashNodup_insertSelf hn) (findByHash_some hfm).1 hm1 hh

theorem plusBatch_fst (s : MstState) (b : Batch) :
    (s.plusBatch b).1 = insertSelf s b := by
  unfold MstState.plusBatch
  rw [insertOne_fst]

theorem applyOp_mono {s s1 : MstState} {op : MstOp} {m m1 : Batch}
    (hrun : applyOp s op = some s1) (hwf : OpWF op)
    (hn : HashNodup s.internal) (hm : m ∈ s.internal)
    (hm1 : m1 ∈ s1.internal) (hh : m1.reducedHash = m.reducedHash) :
    SigsGrow m m1 := by
  cases op with
  | insertB b =>
    have hs1 : s1 = insertSelf s b := by
      simp only [applyOp, Option.some.injEq] at hrun
      rw [← hrun, plusBatch_fst]
    rw [hs1] at hm1
    exact insertSelf_mono hn hm hm1 hh
  | mergeSt bs =>
    have hs1 : s1 = bs.foldl insertSelf s := by
      simp only [applyOp, Option.some.injEq] at hrun
      rw [← hrun, plusState_fst]
    rw [hs1] at hm1
    exact foldl_insertSelf_mono hwf hn hm hm1 hh
  | eraseT t =>
    simp only [applyOp] at hrun
    cases he : MstState.eraseByTime s t with
    | none => rw [he] at hrun; cases hrun
    | some pair =>
      rw [he] at hrun
      have hs1 : pair.1 = s1 := by
        simpa using hrun
      unfold MstState.eraseByTime at he
      cases hl : eraseLoop s.completer s.index s.internal
          (MstState.emptyState s.completer) t with
      | none => rw [hl] at he; cases he
      | some triple =>
        rw [hl] at he
        rcases triple with ⟨idx2, intl2, out2⟩
        have hpair : pair = ({ s with internal := intl2, index := idx2 }, out2) := by
          simpa using he.symm
        have hint : s1.internal = intl2 := by
          rw [← hs1, hpair]
        have hsub : intl2.Sublist s.internal :=
          eraseLoop_sublist s.completer t _ _ _ _ _ _ hl
        have hm1s : m1 ∈ s.internal := hsub.subset (hint ▸ hm1)
        have hfm : findByHash s.internal m.reducedHash = some m :=
          findByHash_of_mem hn hm
        have hfm1 : findByHash s.internal m.reducedHash = some m1 := by
          rw [← hh]
          exact findByHash_of_mem hn hm1s
        have hmm : m = m1 := by
          rw [hfm] at hfm1
          exact Option.some_injective _ hfm1
        rw [← hmm]
        exact sigsGrow_rfl m

theorem applyOp_nodup {s s1 : MstState} {op : MstOp}
    (hrun : applyOp s op = some s1) (hn : HashNodup s.internal) :
    HashNodup s1.internal := by
  cases op with
  | insertB b =>
    have hs1 : s1 = insertSelf s b := by
      simp only [applyOp, Option.some.injEq] at hrun
      rw [← hrun, plusBatch_fst]
    rw [hs1]
    exact hashNodup_insertSelf hn
  | mergeSt bs =>
    have hs1 : s1 = bs.foldl insertSelf s := by
      simp only [applyOp, Option.some.injEq] at hrun
      rw [← hrun, plusState_fst]
    rw [hs1]
    exact foldl_insertSelf_nodup bs hn
  | eraseT t =>
    simp only [applyOp] at hrun
    cases he : MstState.eraseByTime s t with
    | none => rw [he] at hrun; cases hrun
    | some pair =>
      rw [he] at hrun
      have hs1 : pair.1 = s1 := by simpa using hrun
      unfold MstState.eraseByTime at he
      cases hl : eraseLoop s.completer s.index s.internal
          (MstState.emptyState s.completer) t with
      | none => rw [hl] at he; cases he
      | some triple =>
        rw [hl] at he
        rcases triple with ⟨idx2, intl2, out2⟩
        have hpair : pair = ({ s with internal := intl2, index := idx2 }, out2) := by
          simpa using he.symm
        have hint : s1.internal = intl2 := by
          rw [← hs1, hpair]
        rw [hint]
        exact List.Nodup.sublist
          (List.Sublist.map Batch.reducedHash
            (eraseLoop_sublist s.completer t _ _ _ _ _ _ hl)) hn

/-! ## Claim theorems -/

/-- C1: inserting a batch whose reduced hash is already a member merges the
incoming signatures into the stored batch; when the merged batch is complete,
`insert` reports `completed? = true`, the diff state holds exactly the merged
batch, and the batch is gone from `members`.  Concretely (S1, quorum 2):
inserting `b` with `{pk1}` yields diff `{b}` and `completed? = false`;
inserting `b` again with `{pk2}` yields the merged `{pk1, pk2}` diff,
`completed? = true`, and `get_batches()` is then empty. -/
theorem C1_insert_merge_completes :
    (∀ (s : MstState) (b found : Batch),
      HashNodup s.internal →
      findByHash s.internal b.reducedHash = some found →
      s.completer.complete (mergeSignaturesInBatch found b).1 = true →
      (s.plusBatch b).2.2 = true ∧
      (s.plusBatch b).2.1.internal = [(mergeSignaturesInBatch found b).1] ∧
      findByHash (s.plusBatch b).1.internal b.reducedHash = none) ∧
    (stS1a.2.1.internal = [bS1a] ∧ stS1a.2.2 = false ∧
     stS1b.2.1.internal = [bS1m] ∧ stS1b.2.2 = true ∧
     stS1b.1.getBatches = []) := by
  constructor
  · intro s b found hn hf hc
    have hbh : found.reducedHash = b.reducedHash := (findByHash_some hf).2
    have hkey : s.plusBatch b =
        ({ s with
            internal := eraseByHash (replaceByHash s.internal
                (mergeSignaturesInBatch found b).1)
              (mergeSignaturesInBatch found b).1.reducedHash
            index := replaceByHash s.index (mergeSignaturesInBatch found b).1 },
         insertSelf (MstState.emptyState s.completer)
           (mergeSignaturesInBatch found b).1, true) := by
      unfold MstState.plusBatch
      simp only [insertOne, hf, hc, if_true]
    refine ⟨by rw [hkey], ?_, ?_⟩
    · rw [hkey]
      rfl
    · rw [hkey]
      show findByHash (eraseByHash (replaceByHash s.internal
          (mergeSignaturesInBatch found b).1)
        (mergeSignaturesInBatch found b).1.reducedHash) b.reducedHash = none
      rw [show (mergeSignaturesInBatch found b).1.reducedHash = b.reducedHash from
        (merge_hash found b).symm ▸ hbh]
      exact find_eraseByHash_self (hashNodup_replaceByHash hn)
  · exact ⟨by decide, by decide, by decide, by decide, by decide⟩

/-- C1 witness: the general statement applied to scenario S1. -/
theorem C1_insert_merge_completes_witness :
    HashNodup stS1a.1.internal ∧
    findByHash stS1a.1.internal bS1b.reducedHash = some bS1a ∧
    stS1a.1.completer.complete (mergeSignaturesInBatch bS1a bS1b).1 = true ∧
    (stS1a.1.plusBatch bS1b).2.2 = true :=
  ⟨by decide, by decide, by decide,
   (C1_insert_merge_completes.1 stS1a.1 bS1b bS1a (by decide) (by decide)
     (by decide)).1⟩

/-- C2: completion erases a batch from `members` but leaves its entry in the
expiry queue; on the state reached by completing S1's batch, `eraseByTime`
at time 100 finds the expired stale top, fails the `members` lookup, and the
C++ dereferences `internal_state_.end()` (modeled: the operation returns
`none` instead of the expired batches — `eraseByTime` is not total on
reachable states). -/
theorem C2_eraseByTime_stale_entry_fails :
    stS1b.1.eraseByTime 100 = none := rfl

/-- C3 counterexample: a batch satisfying `is_complete` inserted under a fresh
hash is stored, stays in `members`, and `insert` reports `completed? = false`
— the code checks completion only in the merge path, so the claimed invariant
fails at a batch complete at its first insertion. -/
theorem C3_complete_first_insert_cex :
    ((MstState.emptyState cS1).plusBatch bC3).2.2 = false ∧
    findByHash ((MstState.emptyState cS1).plusBatch bC3).1.internal
      bC3.reducedHash = some bC3 ∧
    cS1.complete bC3 = true := ⟨by decide, by decide, by decide⟩

/-- C3 amended: eviction of completed batches happens only through the merge
path — whenever `insertOne` reports `completed? = true`, no member with that
reduced hash remains; but a batch already complete at its first insertion
(fresh hash) is stored unchanged and reported `completed? = false`. -/
theorem C3_completion_evicts_on_merge :
    ∀ (s out : MstState) (b : Batch), HashNodup s.internal →
      ((insertOne s out b).2.2 = true →
        findByHash (insertOne s out b).1.internal b.reducedHash = none) ∧
      (findByHash s.internal b.reducedHash = none →
        (s.plusBatch b).2.2 = false ∧
        findByHash (s.plusBatch b).1.internal b.reducedHash = some b) := by
  intro s out b hn
  constructor
  · intro hcomp
    cases hf : findByHash s.internal b.reducedHash with
    | none =>
      simp [insertOne, hf] at hcomp
    | some found =>
      have hbh : found.reducedHash = b.reducedHash := (findByHash_some hf).2
      by_cases hc : s.completer.complete (mergeSignaturesInBatch found b).1 = true
      · have hkey : (insertOne s out b).1.internal =
            eraseByHash (replaceByHash s.internal
                (mergeSignaturesInBatch found b).1)
              (mergeSignaturesInBatch found b).1.reducedHash := by
          simp only [insertOne, hf, hc, if_true]
        rw [hkey,
          show (mergeSignaturesInBatch found b).1.reducedHash = b.reducedHash from
            (merge_hash found b).symm ▸ hbh]
        exact find_eraseByHash_self (hashNodup_replaceByHash hn)
      · exfalso
        by_cases hr : (mergeSignaturesInBatch found b).2 = true
        · simp [insertOne, hf, hc, hr] at hcomp
        · simp [insertOne, hf, hc, hr] at hcomp
  · intro hf
    have hkey : s.plusBatch b =
        (s.rawInsert b, (MstState.emptyState s.completer).rawInsert b, false) := by
      unfold MstState.plusBatch
      simp only [insertOne, hf]
    refine ⟨by rw [hkey], ?_⟩
    rw [hkey]
    show findByHash (setInsert s.internal b) b.reducedHash = some b
    rw [setInsert_of_none hf, find_append_of_none hf]
    exact findByHash_cons_pos rfl

/-- C3 witness: both amended parts applied at concrete inputs — S1's merge
completion evicts the hash; a fresh insert is stored and not completed. -/
theorem C3_completion_evicts_on_merge_witness :
    HashNodup stS1a.1.internal ∧
    findByHash (insertOne stS1a.1 (MstState.emptyState cS1) bS1b).1.internal
      bS1b.reducedHash = none ∧
    ((MstState.emptyState cS1).plusBatch bS3a).2.2 = false :=
  ⟨by decide,
   (C3_completion_evicts_on_merge stS1a.1 (MstState.emptyState cS1) bS1b
     (by decide)).1 (by decide),
   ((C3_completion_evicts_on_merge (MstState.emptyState cS1)
     (MstState.emptyState cS1) bS3a (by decide)).2 (by decide)).1⟩

/-- C4 counterexample: scenario S3 as written fails on the code — with TTL 10,
`b1` created at 0 and `b2` at 5, `erase_by_time(8)` expires nothing (age 8 is
below the TTL, `is_expired` being `now − created ≥ TTL`), returning an empty
state and retaining both batches, not `{b1}`. -/
theorem C4_eraseByTime_S3_cex :
    (sS3.eraseByTime 8).map (fun p => (p.1.internal, p.2.internal)) =
      some ([bS3a, bS3b], []) ∧
    ([] : List Batch) ≠ [bS3a] := ⟨by decide, by decide⟩

/-- C4 amended: on a state whose expiry queue holds exactly the members sorted
by the completer's expiry key, with the key order consistent with
`is_expired`, `eraseByTime` succeeds, returns exactly the expired members,
and afterwards no remaining member is expired.  The S3 scenario holds at a
time past the TTL: `eraseByTime 12` returns `{b1}` and retains `{b2}`. -/
theorem C4_eraseByTime_expires_exactly :
    (∀ (s : MstState) (t : Nat),
      HashNodup s.internal →
      List.Perm s.index s.internal →
      List.Sorted (fun a b : Batch =>
        s.completer.expiryKey a ≤ s.completer.expiryKey b) s.index →
      (∀ a b : Batch, s.completer.expiryKey a ≤ s.completer.expiryKey b →
        s.completer.expired b t = true → s.completer.expired a t = true) →
      ∃ s2 out, s.eraseByTime t = some (s2, out) ∧
        List.Perm out.internal
          (s.internal.filter (fun b => s.completer.expired b t)) ∧
        List.Perm s2.internal
          (s.internal.filter (fun b => !(s.completer.expired b t))) ∧
        ∀ m ∈ s2.internal, s.completer.expired m t = false) ∧
    (sS3.eraseByTime 12).map (fun p => (p.1.internal, p.2.internal)) =
      some ([bS3b], [bS3a]) := by
  constructor
  · intro s t hn hperm hsorted hmono
    have hdisj : ∀ b ∈ s.internal,
        findByHash (MstState.emptyState s.completer).internal b.reducedHash =
          none := by
      intro b _
      rfl
    rcases eraseLoop_spec s.completer t hmono s.index s.internal
        (MstState.emptyState s.completer) hn hperm hsorted hdisj with
      ⟨idx2, intl2, out2, hrun, hout2, hintl2, hall⟩
    refine ⟨{ s with internal := intl2, index := idx2 }, out2, ?_, ?_, hintl2, hall⟩
    · unfold MstState.eraseByTime
      rw [hrun]
    · simpa using hout2
  · decide

/-- C4 witness: the general statement applied to S3 at time 12. -/
theorem C4_eraseByTime_expires_exactly_witness :
    HashNodup sS3.internal ∧ List.Perm sS3.index sS3.internal ∧
    ∃ s2 out, sS3.eraseByTime 12 = some (s2, out) := by
  have hmono : ∀ a b : Batch,
      sS3.completer.expiryKey a ≤ sS3.completer.expiryKey b →
      sS3.completer.expired b 12 = true → sS3.completer.expired a 12 = true := by
    intro a b hab hb
    have hab' : batchMinCreated a ≤ batchMinCreated b := hab
    have hb' : batchMinCreated b + 10 ≤ 12 := of_decide_eq_true hb
    exact decide_eq_true (Nat.le_trans (Nat.add_le_add_right hab' 10) hb')
  refine ⟨by decide, by decide, ?_⟩
  rcases C4_eraseByTime_expires_exactly.1 sS3 12 (by decide) (by decide)
      (by decide) hmono with ⟨s2, out, hrun, _⟩
  exact ⟨s2, out, hrun⟩

theorem find_isSome_congr : ∀ {l l2 : List Batch},
    l.map Batch.reducedHash = l2.map Batch.reducedHash → ∀ h : Nat,
    (findByHash l h).isSome = (findByHash l2 h).isSome := by
  intro l
  induction l with
  | nil =>
    intro l2 hm h
    cases l2 with
    | nil => rfl
    | cons a2 t2 => simp at hm
  | cons a t ih =>
    intro l2 hm h
    cases l2 with
    | nil => simp at hm
    | cons a2 t2 =>
      simp only [List.map_cons, List.cons.injEq] at hm
      by_cases hc : a.reducedHash = h
      · rw [findByHash_cons_pos hc, findByHash_cons_pos (hm.1 ▸ hc)]
        rfl
      · rw [findByHash_cons_neg hc, findByHash_cons_neg (hm.1 ▸ hc)]
        exact ih hm.2 h

/-- C5: `difference` returns a new state whose members are exactly the
batches of the left state whose reduced hash is absent from the right state;
the right state's signature contents play no role in the selection (states
with equal member-hash lists produce equal differences). -/
theorem C5_difference_filters_by_hash :
    (∀ A B : MstState, (A.sub B).internal =
      A.internal.filter (fun b => !(findByHash B.internal b.reducedHash).isSome)) ∧
    (∀ A B B2 : MstState,
      B.internal.map Batch.reducedHash = B2.internal.map Batch.reducedHash →
      A.sub B = A.sub B2) := by
  constructor
  · intro A B
    rfl
  · intro A B B2 hmap
    unfold MstState.sub mkState
    have hsd : set_difference A.internal B.internal =
        set_difference A.internal B2.internal := by
      unfold set_difference
      apply List.filter_congr
      intro b _
      rw [find_isSome_congr hmap b.reducedHash]
    rw [hsd]

/-- C5 witness: the signature-irrelevance part applied to two one-member
states whose batches share the hash but carry different signatures. -/
theorem C5_difference_filters_by_hash_witness :
    (mkState cS1 [bS1a]).internal.map Batch.reducedHash =
      (mkState cS1 [bS1b]).internal.map Batch.reducedHash ∧
    MstState.sub sS3 (mkState cS1 [bS1a]) =
      MstState.sub sS3 (mkState cS1 [bS1b]) :=
  ⟨by decide,
   C5_difference_filters_by_hash.2 sS3 (mkState cS1 [bS1a])
     (mkState cS1 [bS1b]) (by decide)⟩

/-- C6 counterexample: insertion order is observable — starting from the
state holding `b{pk1}` (quorum 2), inserting `b{pk2}` first completes and
evicts the batch so `b{pk3}` re-enters fresh, while the other order leaves
`b{pk2}`: the final `get_batches()` differ. -/
theorem C6_insert_order_cex :
    ((stS1a.1.plusBatch bS1b).1.plusBatch bC6y).1.getBatches ≠
      ((stS1a.1.plusBatch bC6y).1.plusBatch bS1b).1.getBatches := by decide

/-- C6 amended: insertion order does not affect `get_batches()` when the two
batches carry distinct reduced hashes; for batches sharing a reduced hash,
completion eviction with re-insertion (and first-writer-wins signature
deduplication) can make the order observable. -/
theorem C6_insert_commutes_distinct_hashes :
    ∀ (s : MstState) (b1 b2 : Batch), HashNodup s.internal →
      b1.reducedHash ≠ b2.reducedHash →
      ((s.plusBatch b1).1.plusBatch b2).1.getBatches =
        ((s.plusBatch b2).1.plusBatch b1).1.getBatches := by
  intro s b1 b2 hn hne
  rw [plusBatch_fst, plusBatch_fst, plusBatch_fst, plusBatch_fst]
  have hn1 : HashNodup (insertSelf (insertSelf s b1) b2).internal :=
    hashNodup_insertSelf (hashNodup_insertSelf hn)
  have hn2 : HashNodup (insertSelf (insertSelf s b2) b1).internal :=
    hashNodup_insertSelf (hashNodup_insertSelf hn)
  have hslots : ∀ h, findByHash (insertSelf (insertSelf s b1) b2).internal h =
      findByHash (insertSelf (insertSelf s b2) b1).internal h := by
    intro h
    by_cases h1 : h = b1.reducedHash
    · subst h1
      rw [slot_insertSelf_other hne, slot_insertSelf_self hn,
        slot_insertSelf_self (hashNodup_insertSelf hn), insertSelf_completer,
        slot_insertSelf_other hne]
    · by_cases h2 : h = b2.reducedHash
      · subst h2
        rw [slot_insertSelf_self (hashNodup_insertSelf hn), insertSelf_completer,
          slot_insertSelf_other (Ne.symm hne), slot_insertSelf_other (Ne.symm hne),
          slot_insertSelf_self hn]
      · rw [slot_insertSelf_other h2, slot_insertSelf_other h1,
          slot_insertSelf_other h1, slot_insertSelf_other h2]
  unfold MstState.getBatches
  exact sortByHash_eq_of_perm (perm_of_slots_eq hn1 hn2 hslots) hn1

/-- C6 witness: the amended commutativity applied to the two distinct-hash S3
batches inserted into the empty state. -/
theorem C6_insert_commutes_distinct_hashes_witness :
    HashNodup (MstState.emptyState cS1).internal ∧
    bS3a.reducedHash ≠ bS3b.reducedHash ∧
    (((MstState.emptyState cS1).plusBatch bS3a).1.plusBatch bS3b).1.getBatches =
      (((MstState.emptyState cS1).plusBatch bS3b).1.plusBatch bS3a).1.getBatches :=
  ⟨by decide, by decide,
   C6_insert_commutes_distinct_hashes (MstState.emptyState cS1) bS3a bS3b
     (by decide) (by decide)⟩

/-- C7: when the inserted batch's hash is already a member, the merge adds no
new signature, and the stored batch is not complete, `insert` leaves the
members unchanged and returns an empty diff with `completed? = false`.
Concretely (S2): inserting `b{pk1}` twice leaves the member's signatures at
`{pk1}`, an empty diff, and `completed? = false`. -/
theorem C7_duplicate_signature_empty_diff :
    (∀ (s : MstState) (b found : Batch), HashNodup s.internal →
      findByHash s.internal b.reducedHash = some found →
      (mergeSignaturesInBatch found b).2 = false →
      s.completer.complete found = false →
      (s.plusBatch b).1.internal = s.internal ∧
      (s.plusBatch b).2.1.internal = [] ∧
      (s.plusBatch b).2.2 = false) ∧
    (stS2.1.internal = [bS1a] ∧ stS2.2.1.internal = [] ∧ stS2.2.2 = false) := by
  constructor
  · intro s b found hn hf hflag hc
    have hbh : found.reducedHash = b.reducedHash := (findByHash_some hf).2
    have hm : (mergeSignaturesInBatch found b).1 = found := merge_of_false hflag
    have hc2 : s.completer.complete (mergeSignaturesInBatch found b).1 = false := by
      rw [hm]
      exact hc
    have hkey : s.plusBatch b =
        ({ s with
            internal := replaceByHash s.internal found
            index := replaceByHash s.index found },
         MstState.emptyState s.completer, false) := by
      unfold MstState.plusBatch
      simp only [insertOne, hf, hc2, hflag, hm, Bool.false_eq_true, if_false]
      rw [if_neg (by simp [hc])]
    have hrepl : replaceByHash s.internal found = s.internal :=
      replaceByHash_self_eq hn (hbh.symm ▸ hf)
    refine ⟨?_, by rw [hkey]; rfl, by rw [hkey]⟩
    rw [hkey]
    exact hrepl
  · exact ⟨by decide, by decide, by decide⟩

/-- C7 witness: the general statement applied to scenario S2. -/
theorem C7_duplicate_signature_empty_diff_witness :
    HashNodup stS1a.1.internal ∧
    (mergeSignaturesInBatch bS1a bS1a).2 = false ∧
    (stS1a.1.plusBatch bS1a).2.2 = false :=
  ⟨by decide, by decide,
   (C7_duplicate_signature_empty_diff.1 stS1a.1 bS1a bS1a (by decide)
     (by decide) (by decide) (by decide)).2.2⟩

/-- C8: signature sets of batches held in `members` grow monotonically: along
any successful run of public operations during which a batch's reduced hash
stays present, the transaction-wise signature sets at the end contain those
of any earlier observation — merging only adds signatures. -/
theorem C8_signature_monotonicity :
    ∀ (ops : List MstOp) (s s2 : MstState) (m m2 : Batch),
      runOps s ops = some s2 →
      HashNodup s.internal →
      (∀ op ∈ ops, OpWF op) →
      m ∈ s.internal → m2 ∈ s2.internal →
      m2.reducedHash = m.reducedHash →
      (∀ (k : Nat) (sk : MstState), runOps s (ops.take k) = some sk →
        (findByHash sk.internal m.reducedHash).isSome) →
      SigsGrow m m2 := by
  intro ops
  induction ops with
  | nil =>
    intro s s2 m m2 hrun hn _ hm hm2 hh _
    have hs2 : s = s2 := by
      simpa [runOps] using hrun
    subst hs2
    have hfm : findByHash s.internal m.reducedHash = some m :=
      findByHash_of_mem hn hm
    have hfm2 : findByHash s.internal m.reducedHash = some m2 := by
      rw [← hh]
      exact findByHash_of_mem hn hm2
    have hmm : m = m2 := by
      rw [hfm] at hfm2
      exact Option.some_injective _ hfm2
    rw [← hmm]
    exact sigsGrow_rfl m
  | cons op ops ih =>
    intro s s2 m m2 hrun hn hwf hm hm2 hh hpres
    cases hap : applyOp s op with
    | none =>
      unfold runOps at hrun
      rw [hap] at hrun
      cases hrun
    | some s1 =>
      have hrun1 : runOps s1 ops = some s2 := by
        unfold runOps at hrun
        rw [hap] at hrun
        exact hrun
      have hpres1 : runOps s ((op :: ops).take 1) = some s1 := by
        show runOps s [op] = some s1
        unfold runOps
        rw [hap]
        rfl
      have hsome1 := hpres 1 s1 hpres1
      rcases Option.isSome_iff_exists.mp hsome1 with ⟨m1, hfm1⟩
      rcases findByHash_some hfm1 with ⟨hm1mem, hm1h⟩
      have hgrow1 : SigsGrow m m1 :=
        applyOp_mono hap (hwf op (List.mem_cons_self op ops)) hn hm hm1mem hm1h
      have hn1 : HashNodup s1.internal := applyOp_nodup hap hn
      have hgrow2 : SigsGrow m1 m2 := by
        refine ih s1 s2 m1 m2 hrun1 hn1
          (fun o ho => hwf o (List.mem_cons_of_mem op ho)) hm1mem hm2
          (by rw [hh, hm1h]) ?_
        intro k sk hsk
        have hpresk : runOps s ((op :: ops).take (k + 1)) = some sk := by
          show runOps s (op :: ops.take k) = some sk
          unfold runOps
          rw [hap]
          exact hsk
        have := hpres (k + 1) sk hpresk
        rw [hm1h]
        exact this
      exact sigsGrow_trans hgrow1 hgrow2

/-- C8 witness: one insert merging `pk2` into the quorum-3 member `{pk1}` —
the member's signature set grows to `{pk1, pk2}`. -/
theorem C8_signature_monotonicity_witness :
    runOps sC8 [MstOp.insertB bC8b] = some (sC8.plusBatch bC8b).1 ∧
    SigsGrow bC8a bC8m := by
  constructor
  · rfl
  · refine C8_signature_monotonicity [MstOp.insertB bC8b] sC8
      (sC8.plusBatch bC8b).1 bC8a bC8m rfl (by decide) ?_ (by decide) (by decide)
      (by decide) ?_
    · intro op hop
      rcases List.mem_singleton.mp hop with rfl
      trivial
    · intro k sk hsk
      cases k with
      | zero =>
        have hsks : sk = sC8 := by
          simpa [runOps] using hsk.symm
        rw [hsks]
        decide
      | succ n =>
        have htake : (List.take (n + 1) [MstOp.insertB bC8b]) =
            [MstOp.insertB bC8b] := by
          simp
        rw [htake] at hsk
        have hsks : sk = (sC8.plusBatch bC8b).1 := by
          simpa [runOps, applyOp] using hsk.symm
        rw [hsks]
        decide

/-- C9 counterexample: `queue_` is a `tbb::concurrent_queue` — unbounded —
so enqueueing into a buffer already holding `max_size` transactions succeeds
(returning `OK`, not `RESOURCE_EXHAUSTED`) and leaves the buffer above
`max_size`. -/
theorem C9_bounded_queue_cex :
    sendTransaction osFull (some 6) =
      (⟨[5, 6], 1, 100, 0⟩, GrpcStatus.ok) ∧
    osFull.maxSize < (handleTransaction osFull 6).queue.length :=
  ⟨by decide, by decide⟩

/-- C9 amended: the intake queue is unbounded and enqueue always succeeds
(`SendTransaction` answers `OK` for every convertible transaction, regardless
of the buffer's length); `max_size` bounds the number of transactions drained
into one proposal, not the buffer. -/
theorem C9_unbounded_enqueue_bounded_proposal :
    (∀ (os : OrderingService) (tx : Nat),
      sendTransaction os (some tx) = (handleTransaction os tx, GrpcStatus.ok) ∧
      (handleTransaction os tx).queue = os.queue ++ [tx]) ∧
    (∀ (os : OrderingService) (p : List Nat × Nat),
      (generateProposal os).2 = some p →
      p.1.length ≤ os.maxSize ∧ p.1 = os.queue.take os.maxSize ∧
      p.2 = os.height + 1) := by
  constructor
  · intro os tx
    exact ⟨rfl, rfl⟩
  · intro os p hp
    unfold generateProposal at hp
    by_cases hq : (os.queue.take os.maxSize).isEmpty = true
    · rw [if_pos hq] at hp
      cases hp
    · rw [if_neg hq] at hp
      have hpe : (os.queue.take os.maxSize, os.height + 1) = p := by
        simpa using hp
      rw [← hpe]
      exact ⟨List.length_take_le os.maxSize os.queue, rfl, rfl⟩

/-- C9 witness: draining the full one-slot buffer yields a one-transaction
proposal at height 1. -/
theorem C9_unbounded_enqueue_bounded_proposal_witness :
    (generateProposal osFull).2 = some ([5], 1) ∧
    ([5] : List Nat).length ≤ osFull.maxSize :=
  ⟨by decide,
   (C9_unbounded_enqueue_bounded_proposal.2 osFull ([5], 1) (by decide)).1⟩

/-- C10: `operator==` is decided solely by the sorted batch sequences — two
states are equal iff their `getBatches()` agree element-wise; the completer,
the expiry index, and the insertion order (any permutation of the members)
play no role. -/
theorem C10_equality_by_sorted_batches :
    (∀ A B : MstState, A.beqState B = true ↔ A.getBatches = B.getBatches) ∧
    (∀ (c1 c2 : Completer) (i1 i2 l : List Batch),
      MstState.beqState ⟨c1, l, i1⟩ ⟨c2, l, i2⟩ = true) ∧
    (∀ (c1 c2 : Completer) (i1 i2 l1 l2 : List Batch),
      List.Perm l1 l2 → HashNodup l1 →
      MstState.beqState ⟨c1, l1, i1⟩ ⟨c2, l2, i2⟩ = true) := by
  have hiff : ∀ A B : MstState,
      A.beqState B = true ↔ A.getBatches = B.getBatches := fun _ _ =>
    batchListEq_iff
  refine ⟨hiff, ?_, ?_⟩
  · intro c1 c2 i1 i2 l
    exact (hiff _ _).mpr rfl
  · intro c1 c2 i1 i2 l1 l2 hp hn
    exact (hiff _ _).mpr (sortByHash_eq_of_perm hp hn)

/-- C10 witness: states with different completers, different indices and
member lists permuted against each other compare equal. -/
theorem C10_equality_by_sorted_batches_witness :
    List.Perm [bS3a, bS3b] [bS3b, bS3a] ∧ HashNodup [bS3a, bS3b] ∧
    MstState.beqState ⟨cS1, [bS3a, bS3b], []⟩
      ⟨defaultCompleter 99, [bS3b, bS3a], [bS3a]⟩ = true :=
  ⟨by decide, by decide,
   C10_equality_by_sorted_batches.2.2 cS1 (defaultCompleter 99) [] [bS3a]
     [bS3a, bS3b] [bS3b, bS3a] (by decide) (by decide)⟩

end Iroha
